import Mathlib

/-!
Shallow embedding of the DESRu discrete-event simulation core
(`src/src/lib.rs`): the `Event` struct, the `EventScheduler` struct, the
run loop with pluggable stop conditions and log filtering, and the
max-time stop-condition factory.

Modelling choices:

* `time` values (`f64` in Rust) are modelled as `ℚ`: every finite float
  is a rational, rational comparison is total and decidable, and none of
  the verified properties depend on rounding.
* The action field `Box<dyn FnMut(&mut EventScheduler) -> Option<String>>`
  closes over the scheduler type itself, which is a negative occurrence
  and cannot be an inductive field in Lean.  We therefore parameterise
  the development by an opaque action payload type `α` together with an
  interpretation `interp : α → EventScheduler α → EventScheduler α ×
  Option String` supplied wherever the Rust code would call the closure.
  The distinguished constructor `Act.noop` models the placeholder
  closure `Box::new(|_| None)` used both as the default action in
  `Event::new` and as the replacement action in `impl Clone for Event`;
  its interpretation is hard-wired to return the scheduler unchanged
  with no result, exactly as `|_| None` does.
* `BinaryHeap<Event>` is modelled as a list; `push` is `cons` and
  `pop`/`peek` extract a maximal element under the `impl Ord for Event`
  comparison (which inverts the time order, so the element popped is one
  of minimal time).  Tie-breaking among equal-time events is unspecified
  in the source; the model fixes one deterministic choice.
* The Rust `run` loop may diverge (an action can keep scheduling new
  events), so the model takes an explicit fuel argument and returns
  `none` when the fuel is exhausted; `some` results are exactly the
  terminating executions of the source loop.
-/

namespace DESRu

/-- Opaque action payload: `Act.noop` is the placeholder closure
`Box::new(|_| None)`; `Act.custom a` is a caller-supplied closure whose
behaviour is given by an interpretation function. -/
inductive Act (α : Type) where
  | noop : Act α
  | custom (a : α) : Act α
  deriving DecidableEq, Repr

/-- The `Event` struct: scheduled time, action, string-to-string context
map (modelled as an association list), and the active flag. -/
structure Event (α : Type) where
  time : ℚ
  action : Act α
  context : List (String × String)
  active : Bool
  deriving DecidableEq, Repr

/-- The `EventScheduler` struct: current simulated time, the pending
event queue (a `BinaryHeap` in Rust, modelled as a list), and the log of
executed `(Event, Option<String>)` pairs. -/
structure EventScheduler (α : Type) where
  current_time : ℚ
  event_queue : List (Event α)
  event_log : List (Event α × Option String)
  deriving DecidableEq, Repr

/-- The type of action interpretations: what a `custom` closure does
when invoked with mutable access to the scheduler, returning the updated
scheduler and the optional string result. -/
def Interp (α : Type) : Type :=
  α → EventScheduler α → EventScheduler α × Option String

/-- Invoke an action value on a scheduler: the `noop` placeholder
`|_| None` leaves the scheduler unchanged and returns no result; a
`custom` closure behaves as the interpretation says. -/
def runAct (interp : Interp α) : Act α → EventScheduler α → EventScheduler α × Option String
  | Act.noop, s => (s, none)
  | Act.custom a, s => interp a s

/-- `impl Clone for Event`: same `time`, `context` and `active`, but the
action is replaced by the placeholder returning `None`. -/
def Event.clone (e : Event α) : Event α :=
  { time := e.time, action := Act.noop, context := e.context, active := e.active }

/-- `Event::new`: the optional action defaults to the no-op placeholder,
the optional context defaults to the empty map, and `active` is `true`. -/
def Event.new (time : ℚ) (action : Option (Act α))
    (context : Option (List (String × String))) : Event α :=
  { time := time
    action := action.getD Act.noop
    context := context.getD []
    active := true }

/-- `Event::run`: if the event is active, invoke its action on the
scheduler; otherwise return the scheduler unchanged with no result. -/
def Event.run (interp : Interp α) (e : Event α) (s : EventScheduler α) :
    EventScheduler α × Option String :=
  if e.active then runAct interp e.action s else (s, none)

/-- `Event::activate`: set the active flag. -/
def Event.activate (e : Event α) : Event α :=
  { e with active := true }

/-- `Event::deactivate`: clear the active flag. -/
def Event.deactivate (e : Event α) : Event α :=
  { e with active := false }

/-- Total comparison of two rationals, the behaviour of
`f64::partial_cmp(..).unwrap()` on finite (non-NaN) values. -/
def ratCmp (x y : ℚ) : Ordering :=
  if x < y then Ordering.lt else if x = y then Ordering.eq else Ordering.gt

/-- `impl Ord for Event`: `other.time.partial_cmp(&self.time).unwrap()`,
i.e. the comparison of the times reversed, so that in a max-heap the
event of minimal time has the highest priority. -/
def Event.cmp (a b : Event α) : Ordering :=
  ratCmp b.time a.time

/-- `impl PartialEq for Event`: equality is by scheduled time alone. -/
def Event.eq (a b : Event α) : Bool :=
  decide (a.time = b.time)

/-- `BinaryHeap::push`: insert an event into the queue. -/
def heapPush (e : Event α) (q : List (Event α)) : List (Event α) :=
  e :: q

/-- `BinaryHeap::pop`: remove and return a greatest element under
`Event.cmp` (hence an event of minimal time), or `none` when the queue
is empty. -/
def heapPop : List (Event α) → Option (Event α × List (Event α))
  | [] => none
  | e :: q =>
    match heapPop q with
    | none => some (e, [])
    | some (m, r) =>
      if Event.cmp m e = Ordering.gt then some (m, e :: r) else some (e, q)

/-- `BinaryHeap::peek`: the element `pop` would return, without removing
it. -/
def heapPeek (q : List (Event α)) : Option (Event α) :=
  (heapPop q).map Prod.fst

/-- `EventScheduler::new`: time 0, empty queue, empty log. -/
def EventScheduler.new (α : Type) : EventScheduler α :=
  { current_time := 0, event_queue := [], event_log := [] }

/-- `EventScheduler::schedule`: push the event onto the queue. -/
def EventScheduler.schedule (s : EventScheduler α) (e : Event α) : EventScheduler α :=
  { s with event_queue := heapPush e s.event_queue }

/-- `EventScheduler::timeout`: construct an event at
`current_time + delay` and schedule it. -/
def EventScheduler.timeout (s : EventScheduler α) (delay : ℚ) (action : Option (Act α))
    (context : Option (List (String × String))) : EventScheduler α :=
  s.schedule (Event.new (s.current_time + delay) action context)

/-- One iteration body of the `run` loop after a successful pop: set
`current_time` to the popped event's time, execute the event against the
scheduler (with the event already removed from the queue, exactly as in
the source), and append `(event, result)` to the log when the filter
accepts the pair. -/
def execStep (interp : Interp α) (lf : Event α → Option String → Bool)
    (e : Event α) (q : List (Event α)) (s : EventScheduler α) : EventScheduler α :=
  let s1 : EventScheduler α := { s with current_time := e.time, event_queue := q }
  let r := Event.run interp e s1
  if lf e r.2 then { r.1 with event_log := r.1.event_log ++ [(e, r.2)] } else r.1

/-- The `while !stop(self)` loop of `EventScheduler::run`, with explicit
fuel: check the stop predicate, pop the next event, execute and
optionally log it, repeat.  Returns `none` when the fuel runs out before
the loop exits; `some s` is the scheduler state at loop exit. -/
def runLoop (interp : Interp α) (stop : EventScheduler α → Bool)
    (lf : Event α → Option String → Bool) :
    Nat → EventScheduler α → Option (EventScheduler α)
  | 0, _ => none
  | fuel + 1, s =>
    if stop s then some s
    else
      match heapPop s.event_queue with
      | none => some s
      | some (e, q) => runLoop interp stop lf fuel (execStep interp lf e q s)

/-- `Vec::<(Event, Option<String>)>::clone`: clones each pair, and
cloning an `Event` erases its action. -/
def cloneLog (l : List (Event α × Option String)) : List (Event α × Option String) :=
  l.map (fun p => (p.1.clone, p.2))

/-- `EventScheduler::run`: run the loop (the log filter defaults to
accepting everything) and return the final state together with the value
the Rust method returns, `self.event_log.clone()`. -/
def EventScheduler.run (s : EventScheduler α) (interp : Interp α)
    (stop : EventScheduler α → Bool)
    (log_filter : Option (Event α → Option String → Bool)) (fuel : Nat) :
    Option (EventScheduler α × List (Event α × Option String)) :=
  (runLoop interp stop (log_filter.getD (fun _ _ => true)) fuel s).map
    (fun t => (t, cloneLog t.event_log))

/-- `stop_at_max_time_factory`: stop when `current_time >= max_time`, or
when the queue is empty, or when the next event's time is
`>= max_time`. -/
def stop_at_max_time_factory (max_time : ℚ) : EventScheduler α → Bool :=
  fun s =>
    decide (max_time ≤ s.current_time) ||
      (heapPeek s.event_queue).elim true (fun e => decide (max_time ≤ e.time))

/-- `EventScheduler::run_until_max_time`: `run` with the max-time stop
condition and the default log filter. -/
def EventScheduler.run_until_max_time (s : EventScheduler α) (interp : Interp α)
    (max_time : ℚ) (fuel : Nat) :
    Option (EventScheduler α × List (Event α × Option String)) :=
  s.run interp (stop_at_max_time_factory max_time) none fuel

/-! Hypothesis predicates on interpretations, used to state claims about
runs whose actions are restricted (e.g. actions that schedule no further
events). -/

/-- An interpretation whose actions never modify the scheduler at all
(they may still return results). -/
def PureInterp (interp : Interp α) : Prop :=
  ∀ a t, (interp a t).1 = t

/-- An interpretation whose actions never touch the event log. -/
def PreservesLog (interp : Interp α) : Prop :=
  ∀ a t, (interp a t).1.event_log = t.event_log

/-- An interpretation whose actions never enlarge the event queue
(in particular, actions that schedule no further events). -/
def QueueNonIncreasing (interp : Interp α) : Prop :=
  ∀ a t, (interp a t).1.event_queue.length ≤ t.event_queue.length

/-! Concrete instances used by counterexamples and witnesses. -/

/-- A concrete interpretation over the unit payload: the action leaves
the scheduler unchanged and returns the result string "r". -/
def unitInterp : Interp Unit :=
  fun _ t => (t, some "r")

/-- A fresh scheduler holding one active event at time 1 with a custom
action. -/
def oneEventSched : EventScheduler Unit :=
  (EventScheduler.new Unit).schedule (Event.new 1 (some (Act.custom ())) none)

/-- A fresh scheduler with custom-action events scheduled at times 5
and 15, the max-time boundary scenario. -/
def boundarySched : EventScheduler Unit :=
  ((EventScheduler.new Unit).schedule (Event.new 5 (some (Act.custom ())) none)).schedule
    (Event.new 15 (some (Act.custom ())) none)

/-- A concrete event at time 2 carrying a context entry and a custom
action. -/
def sampleEvent : Event Unit :=
  Event.new 2 (some (Act.custom ())) (some [("k", "v")])

/-- The ordering invariant maintained by the run loop when actions do
not mutate the scheduler: the logged times are non-decreasing, every
logged time is at most the clock, the clock equals the last logged time
once anything is logged, and all queued events are then at or after the
clock. -/
def orderedInv (t : EventScheduler α) : Prop :=
  List.Pairwise (fun p q => p.1.time ≤ q.1.time) t.event_log ∧
    (∀ p ∈ t.event_log, p.1.time ≤ t.current_time) ∧
    (∀ p, t.event_log.getLast? = some p → p.1.time = t.current_time) ∧
    (t.event_log ≠ [] → ∀ e ∈ t.event_queue, t.current_time ≤ e.time)

/-! Basic lemmas about the comparison and the heap model. -/

theorem ratCmp_lt_iff (x y : ℚ) : ratCmp x y = Ordering.lt ↔ x < y := by
  unfold ratCmp
  split_ifs with h1 h2 <;> simp_all

theorem ratCmp_eq_iff (x y : ℚ) : ratCmp x y = Ordering.eq ↔ x = y := by
  unfold ratCmp
  split_ifs with h1 h2 <;> simp_all
  exact h1.ne

theorem ratCmp_gt_iff (x y : ℚ) : ratCmp x y = Ordering.gt ↔ y < x := by
  unfold ratCmp
  split_ifs with h1 h2
  · simp [h1.asymm]
  · simp [h2]
  · simpa using lt_of_le_of_ne (le_of_not_lt h1) (fun h => h2 h.symm)

theorem Event.cmp_gt_iff (a b : Event α) :
    Event.cmp a b = Ordering.gt ↔ a.time < b.time :=
  ratCmp_gt_iff b.time a.time

theorem Event.cmp_eq_iff (a b : Event α) :
    Event.cmp a b = Ordering.eq ↔ a.time = b.time := by
  rw [Event.cmp, ratCmp_eq_iff, eq_comm]

theorem Event.cmp_lt_iff (a b : Event α) :
    Event.cmp a b = Ordering.lt ↔ b.time < a.time :=
  ratCmp_lt_iff b.time a.time

theorem heapPop_eq_none {q : List (Event α)} : heapPop q = none ↔ q = [] := by
  cases q with
  | nil => simp [heapPop]
  | cons e q =>
    simp only [heapPop]
    rcases hq : heapPop q with _ | ⟨m, r⟩
    · simp
    · dsimp only
      split <;> simp

theorem heapPop_perm {q : List (Event α)} {e : Event α} {r : List (Event α)}
    (h : heapPop q = some (e, r)) : q.Perm (e :: r) := by
  induction q generalizing e r with
  | nil => simp [heapPop] at h
  | cons a q ih =>
    rw [heapPop] at h
    rcases hq : heapPop q with _ | ⟨m, r0⟩
    · rw [hq] at h
      dsimp only at h
      simp only [Option.some.injEq, Prod.mk.injEq] at h
      obtain ⟨he, hr⟩ := h
      rw [← he, ← hr, heapPop_eq_none.mp hq]
    · rw [hq] at h
      dsimp only at h
      split at h
      · simp only [Option.some.injEq, Prod.mk.injEq] at h
        obtain ⟨he, hr⟩ := h
        rw [← he, ← hr]
        exact ((ih hq).cons a).trans (List.Perm.swap m a r0)
      · simp only [Option.some.injEq, Prod.mk.injEq] at h
        obtain ⟨he, hr⟩ := h
        rw [← he, ← hr]

theorem heapPop_min {q : List (Event α)} {e : Event α} {r : List (Event α)}
    (h : heapPop q = some (e, r)) : ∀ x ∈ q, e.time ≤ x.time := by
  induction q generalizing e r with
  | nil => simp [heapPop] at h
  | cons a q ih =>
    rw [heapPop] at h
    rcases hq : heapPop q with _ | ⟨m, r0⟩
    · rw [hq] at h
      dsimp only at h
      simp only [Option.some.injEq, Prod.mk.injEq] at h
      obtain ⟨he, _⟩ := h
      rw [← he, heapPop_eq_none.mp hq]
      intro x hx
      simp at hx
      rw [hx]
    · rw [hq] at h
      dsimp only at h
      split at h
      · rename_i hcmp
        simp only [Option.some.injEq, Prod.mk.injEq] at h
        obtain ⟨he, _⟩ := h
        rw [← he]
        have hme : m.time < a.time := (Event.cmp_gt_iff m a).mp hcmp
        intro x hx
        rcases List.mem_cons.mp hx with hx | hx
        · rw [hx]; exact le_of_lt hme
        · exact ih hq x hx
      · rename_i hcmp
        simp only [Option.some.injEq, Prod.mk.injEq] at h
        obtain ⟨he, _⟩ := h
        rw [← he]
        have hml : ¬ m.time < a.time := fun hlt => hcmp ((Event.cmp_gt_iff m a).mpr hlt)
        intro x hx
        rcases List.mem_cons.mp hx with hx | hx
        · rw [hx]
        · exact le_trans (le_of_not_lt hml) (ih hq x hx)

theorem heapPop_length {q : List (Event α)} {e : Event α} {r : List (Event α)}
    (h : heapPop q = some (e, r)) : q.length = r.length + 1 := by
  simpa using (heapPop_perm h).length_eq

theorem heapPop_mem {q : List (Event α)} {e : Event α} {r : List (Event α)}
    (h : heapPop q = some (e, r)) : e ∈ q :=
  (heapPop_perm h).symm.subset (List.mem_cons_self e r)

theorem heapPop_sub {q : List (Event α)} {e : Event α} {r : List (Event α)}
    (h : heapPop q = some (e, r)) : ∀ x ∈ r, x ∈ q :=
  fun x hx => (heapPop_perm h).symm.subset (List.mem_cons_of_mem e hx)

/-! Lemmas on executing a single event under restricted interpretations. -/

theorem Event.run_fst_pure {interp : Interp α} (hp : PureInterp interp)
    (e : Event α) (t : EventScheduler α) : (Event.run interp e t).1 = t := by
  rw [Event.run]
  split
  · rcases ha : e.action with _ | a
    · rfl
    · exact hp a t
  · rfl

theorem Event.run_fst_log {interp : Interp α} (hl : PreservesLog interp)
    (e : Event α) (t : EventScheduler α) :
    (Event.run interp e t).1.event_log = t.event_log := by
  rw [Event.run]
  split
  · rcases ha : e.action with _ | a
    · rfl
    · exact hl a t
  · rfl

theorem Event.run_fst_queue {interp : Interp α} (hq : QueueNonIncreasing interp)
    (e : Event α) (t : EventScheduler α) :
    (Event.run interp e t).1.event_queue.length ≤ t.event_queue.length := by
  rw [Event.run]
  split
  · rcases ha : e.action with _ | a
    · exact le_refl _
    · exact hq a t
  · exact le_refl _

/-! Lemmas on a single loop iteration. -/

theorem execStep_pure_true {interp : Interp α} (hp : PureInterp interp)
    (e : Event α) (q : List (Event α)) (s : EventScheduler α) :
    execStep interp (fun _ _ => true) e q s =
      { current_time := e.time, event_queue := q,
        event_log := s.event_log ++
          [(e, (Event.run interp e
            { s with current_time := e.time, event_queue := q }).2)] } := by
  rw [execStep]
  simp only [if_pos]
  rw [Event.run_fst_pure hp]

theorem execStep_pure_false {interp : Interp α} (hp : PureInterp interp)
    (e : Event α) (q : List (Event α)) (s : EventScheduler α) :
    execStep interp (fun _ _ => false) e q s =
      { s with current_time := e.time, event_queue := q } := by
  rw [execStep]
  rw [Event.run_fst_pure hp]
  simp

theorem execStep_pure_current {interp : Interp α} (hp : PureInterp interp)
    (lf : Event α → Option String → Bool) (e : Event α) (q : List (Event α))
    (s : EventScheduler α) :
    (execStep interp lf e q s).current_time = e.time := by
  rw [execStep]
  split <;> rw [Event.run_fst_pure hp]

theorem execStep_pure_queue {interp : Interp α} (hp : PureInterp interp)
    (lf : Event α → Option String → Bool) (e : Event α) (q : List (Event α))
    (s : EventScheduler α) :
    (execStep interp lf e q s).event_queue = q := by
  rw [execStep]
  split <;> rw [Event.run_fst_pure hp]

theorem execStep_queue_le {interp : Interp α} (hq : QueueNonIncreasing interp)
    (lf : Event α → Option String → Bool) (e : Event α) (q : List (Event α))
    (s : EventScheduler α) :
    (execStep interp lf e q s).event_queue.length ≤ q.length := by
  rw [execStep]
  have := Event.run_fst_queue hq e { s with current_time := e.time, event_queue := q }
  split
  · exact this
  · exact this

theorem execStep_log_mem {interp : Interp α} (hl : PreservesLog interp)
    (lf : Event α → Option String → Bool) (e : Event α) (q : List (Event α))
    (s : EventScheduler α) :
    ∀ p ∈ (execStep interp lf e q s).event_log, p ∈ s.event_log ∨ p.1 = e := by
  rw [execStep]
  have hlog := Event.run_fst_log hl e { s with current_time := e.time, event_queue := q }
  split
  · intro p hp
    simp only [hlog] at hp
    rcases List.mem_append.mp hp with hp | hp
    · exact Or.inl hp
    · simp at hp
      exact Or.inr (by rw [hp])
  · intro p hp
    rw [hlog] at hp
    exact Or.inl hp

/-! Lemmas on the run loop itself. -/

theorem runLoop_stop {interp : Interp α} {stop : EventScheduler α → Bool}
    {lf : Event α → Option String → Bool} {s : EventScheduler α} (fuel : Nat)
    (hstop : stop s = true) : runLoop interp stop lf (fuel + 1) s = some s := by
  rw [runLoop, if_pos hstop]

theorem runLoop_emptyq {interp : Interp α} {stop : EventScheduler α → Bool}
    {lf : Event α → Option String → Bool} {s : EventScheduler α} (fuel : Nat)
    (hq : s.event_queue = []) : runLoop interp stop lf (fuel + 1) s = some s := by
  rw [runLoop]
  split
  · rfl
  · rw [hq]
    rfl

theorem runLoop_total {interp : Interp α} (hq : QueueNonIncreasing interp)
    (stop : EventScheduler α → Bool) (lf : Event α → Option String → Bool) :
    ∀ (fuel : Nat) (s : EventScheduler α), s.event_queue.length < fuel →
      ∃ s2, runLoop interp stop lf fuel s = some s2 := by
  intro fuel
  induction fuel with
  | zero => intro s h; omega
  | succ n ih =>
    intro s h
    rw [runLoop]
    split
    · exact ⟨s, rfl⟩
    · rcases hp : heapPop s.event_queue with _ | ⟨e, q⟩
      · exact ⟨s, rfl⟩
      · apply ih
        have h1 : s.event_queue.length = q.length + 1 := heapPop_length hp
        have h2 := execStep_queue_le hq lf e q s
        omega

theorem runLoop_falseStop_queue {interp : Interp α}
    {lf : Event α → Option String → Bool} :
    ∀ (fuel : Nat) (s s2 : EventScheduler α),
      runLoop interp (fun _ => false) lf fuel s = some s2 → s2.event_queue = [] := by
  intro fuel
  induction fuel with
  | zero => intro s s2 h; simp [runLoop] at h
  | succ n ih =>
    intro s s2 h
    rw [runLoop] at h
    simp only [Bool.false_eq_true, if_false] at h
    rcases hp : heapPop s.event_queue with _ | ⟨e, q⟩ <;> rw [hp] at h <;> dsimp only at h
    · cases h
      exact heapPop_eq_none.mp hp
    · exact ih _ _ h

theorem runLoop_inv {interp : Interp α} (hpure : PureInterp interp)
    (stop : EventScheduler α → Bool) :
    ∀ (fuel : Nat) (s s2 : EventScheduler α),
      runLoop interp stop (fun _ _ => true) fuel s = some s2 →
      orderedInv s → orderedInv s2 := by
  intro fuel
  induction fuel with
  | zero => intro s s2 h; simp [runLoop] at h
  | succ n ih =>
    intro s s2 h hinv
    rw [runLoop] at h
    split at h
    · cases h; exact hinv
    · rcases hp : heapPop s.event_queue with _ | ⟨e, q⟩ <;> rw [hp] at h <;> dsimp only at h
      · cases h; exact hinv
      · refine ih _ _ h ?_
        obtain ⟨h1, h2, h3, h4⟩ := hinv
        have hmem : e ∈ s.event_queue := heapPop_mem hp
        have hcross : ∀ p ∈ s.event_log, p.1.time ≤ e.time := by
          intro p hmemp
          by_cases hnil : s.event_log = []
          · rw [hnil] at hmemp; simp at hmemp
          · exact le_trans (h2 p hmemp) (h4 hnil e hmem)
        rw [execStep_pure_true hpure]
        refine ⟨?_, ?_, ?_, ?_⟩
        · dsimp only
          simp only [List.pairwise_append]
          refine ⟨h1, List.pairwise_singleton _ _, ?_⟩
          intro p hmemp p2 hmemp2
          simp at hmemp2
          rw [hmemp2]
          exact hcross p hmemp
        · intro p hmemp
          dsimp only at hmemp ⊢
          rcases List.mem_append.mp hmemp with hin | hin
          · exact hcross p hin
          · simp at hin
            rw [hin]
        · intro p hlast
          dsimp only at hlast ⊢
          rw [List.getLast?_concat] at hlast
          cases hlast
          rfl
        · intro _ x hx
          dsimp only at hx ⊢
          exact heapPop_min hp x (heapPop_sub hp x hx)

theorem runLoop_perm {interp : Interp α} (hpure : PureInterp interp) :
    ∀ (fuel : Nat) (s s2 : EventScheduler α),
      runLoop interp (fun _ => false) (fun _ _ => true) fuel s = some s2 →
      (s.event_log.map Prod.fst ++ s.event_queue).Perm
        (s2.event_log.map Prod.fst ++ s2.event_queue) := by
  intro fuel
  induction fuel with
  | zero => intro s s2 h; simp [runLoop] at h
  | succ n ih =>
    intro s s2 h
    rw [runLoop] at h
    simp only [Bool.false_eq_true, if_false] at h
    rcases hp : heapPop s.event_queue with _ | ⟨e, q⟩ <;> rw [hp] at h <;> dsimp only at h
    · cases h; exact List.Perm.refl _
    · refine List.Perm.trans ?_ (ih _ _ h)
      rw [execStep_pure_true hpure]
      dsimp only
      simp only [List.map_append, List.map_cons, List.map_nil]
      rw [List.append_assoc]
      exact List.Perm.append_left _ (heapPop_perm hp)

theorem runLoop_lockstep {interp : Interp α} (hpure : PureInterp interp)
    (lf1 lf2 : Event α → Option String → Bool) :
    ∀ (fuel : Nat) (s t s2 : EventScheduler α),
      s.current_time = t.current_time → s.event_queue = t.event_queue →
      runLoop interp (fun _ => false) lf1 fuel s = some s2 →
      ∃ t2, runLoop interp (fun _ => false) lf2 fuel t = some t2 ∧
        s2.current_time = t2.current_time ∧ s2.event_queue = t2.event_queue := by
  intro fuel
  induction fuel with
  | zero => intro s t s2 _ _ h; simp [runLoop] at h
  | succ n ih =>
    intro s t s2 hct hqu h
    rw [runLoop] at h
    simp only [Bool.false_eq_true, if_false] at h
    rw [runLoop]
    simp only [Bool.false_eq_true, if_false]
    rw [← hqu]
    rcases hp : heapPop s.event_queue with _ | ⟨e, q⟩ <;> rw [hp] at h <;> dsimp only at h
    · cases h
      exact ⟨t, rfl, hct, hqu⟩
    · dsimp only
      refine ih _ _ _ ?_ ?_ h
      · rw [execStep_pure_current hpure, execStep_pure_current hpure]
      · rw [execStep_pure_queue hpure, execStep_pure_queue hpure]

theorem runLoop_falseFilter_log {interp : Interp α} (hpure : PureInterp interp)
    (stop : EventScheduler α → Bool) :
    ∀ (fuel : Nat) (s s2 : EventScheduler α),
      runLoop interp stop (fun _ _ => false) fuel s = some s2 →
      s2.event_log = s.event_log := by
  intro fuel
  induction fuel with
  | zero => intro s s2 h; simp [runLoop] at h
  | succ n ih =>
    intro s s2 h
    rw [runLoop] at h
    split at h
    · cases h; rfl
    · rcases hp : heapPop s.event_queue with _ | ⟨e, q⟩ <;> rw [hp] at h <;> dsimp only at h
      · cases h; rfl
      · rw [ih _ _ h, execStep_pure_false hpure]

theorem stop_factory_true_iff (mt : ℚ) (s : EventScheduler α) :
    stop_at_max_time_factory mt s = true ↔
      mt ≤ s.current_time ∨ s.event_queue = [] ∨
        ∃ e, heapPeek s.event_queue = some e ∧ mt ≤ e.time := by
  rw [stop_at_max_time_factory]
  rcases hpk : heapPeek s.event_queue with _ | e
  · have : s.event_queue = [] := by
      rw [heapPeek] at hpk
      rcases hp : heapPop s.event_queue with _ | p
      · exact heapPop_eq_none.mp hp
      · rw [hp] at hpk; simp at hpk
    simp [this]
  · have hne : s.event_queue ≠ [] := by
      intro hnil
      rw [heapPeek, hnil] at hpk
      simp [heapPop] at hpk
    simp [hne, hpk]

theorem stop_factory_false (mt : ℚ) (s : EventScheduler α)
    (h : stop_at_max_time_factory mt s = false) :
    ¬ mt ≤ s.current_time ∧
      ∃ e q, heapPop s.event_queue = some (e, q) ∧ e.time < mt := by
  rw [stop_at_max_time_factory] at h
  simp only [Bool.or_eq_false_iff, decide_eq_false_iff_not] at h
  obtain ⟨h1, h2⟩ := h
  refine ⟨h1, ?_⟩
  rcases hp : heapPop s.event_queue with _ | ⟨e, q⟩
  · rw [heapPeek, hp] at h2
    simp at h2
  · rw [heapPeek, hp] at h2
    simp at h2
    exact ⟨e, q, rfl, h2⟩

theorem runLoop_maxtime_log {interp : Interp α} (hl : PreservesLog interp)
    (mt : ℚ) (lf : Event α → Option String → Bool) :
    ∀ (fuel : Nat) (s s2 : EventScheduler α),
      runLoop interp (stop_at_max_time_factory mt) lf fuel s = some s2 →
      (∀ p ∈ s.event_log, p.1.time < mt) →
      ∀ p ∈ s2.event_log, p.1.time < mt := by
  intro fuel
  induction fuel with
  | zero => intro s s2 h; simp [runLoop] at h
  | succ n ih =>
    intro s s2 h hlog
    rw [runLoop] at h
    split at h
    · cases h; exact hlog
    · rename_i hfalse
      have hst : stop_at_max_time_factory mt s = false := by
        rcases hb : stop_at_max_time_factory mt s with _ | _
        · rfl
        · exact absurd hb hfalse
      obtain ⟨_, e0, q0, hp0, hlt⟩ := stop_factory_false mt s hst
      rw [hp0] at h
      dsimp only at h
      refine ih _ _ h ?_
      intro p hmemp
      rcases execStep_log_mem hl lf e0 q0 s p hmemp with hin | hin
      · exact hlog p hin
      · rw [hin]; exact hlt

/-! The claims. -/

/-- C5: `Event::run` returns no result and leaves the scheduler
unchanged when the event is inactive; when active it invokes the action
with access to the scheduler and returns exactly the action's outcome. -/
theorem c5_event_run_semantics {α : Type} (interp : Interp α) (e : Event α)
    (s : EventScheduler α) :
    (e.active = false → Event.run interp e s = (s, none)) ∧
      (e.active = true → Event.run interp e s = runAct interp e.action s) ∧
      (∀ a, e.active = true → e.action = Act.custom a →
        Event.run interp e s = interp a s) := by
  refine ⟨?_, ?_, ?_⟩
  · intro h; rw [Event.run, h]; simp
  · intro h; rw [Event.run, h]; simp
  · intro a h ha; rw [Event.run, h, ha]; simp [runAct]

/-- C5 witness: a concrete deactivated event yields no result and no
state change; a concrete active event returns exactly what its action
returns. -/
theorem c5_witness :
    Event.run unitInterp sampleEvent.deactivate (EventScheduler.new Unit) =
        (EventScheduler.new Unit, none) ∧
      Event.run unitInterp sampleEvent (EventScheduler.new Unit) =
        unitInterp () (EventScheduler.new Unit) :=
  ⟨(c5_event_run_semantics unitInterp sampleEvent.deactivate
      (EventScheduler.new Unit)).1 rfl,
    (c5_event_run_semantics unitInterp sampleEvent
      (EventScheduler.new Unit)).2.2 () rfl rfl⟩

/-- C6: cloning an event duplicates its time, active flag and context
but erases the action: running the clone returns the scheduler unchanged
with no result under every interpretation, even when the clone is
active, regardless of what the original action returns. -/
theorem c6_clone_erases_action {α : Type} (e : Event α) :
    e.clone.time = e.time ∧ e.clone.active = e.active ∧
      e.clone.context = e.context ∧ e.clone.action = Act.noop ∧
      ∀ (interp : Interp α) (s : EventScheduler α),
        Event.run interp e.clone s = (s, none) := by
  refine ⟨rfl, rfl, rfl, rfl, ?_⟩
  intro interp s
  rw [Event.run]
  split <;> rfl

/-- C7: `timeout(delay, action, context)` is exactly constructing
`Event::new(current_time + delay, action, context)` and scheduling it;
the queued event sits at `current_time + delay`, is active, carries the
given action (defaulting to the no-op) and context (defaulting to
empty); a negative delay puts the event before the current time. -/
theorem c7_timeout_refines_schedule {α : Type} (s : EventScheduler α) (delay : ℚ)
    (action : Option (Act α)) (context : Option (List (String × String))) :
    s.timeout delay action context =
        s.schedule (Event.new (s.current_time + delay) action context) ∧
      (s.timeout delay action context).event_queue =
        Event.new (s.current_time + delay) action context :: s.event_queue ∧
      (Event.new (s.current_time + delay) action context).time =
        s.current_time + delay ∧
      (Event.new (s.current_time + delay) action context).active = true ∧
      (Event.new (s.current_time + delay) action context).action =
        action.getD Act.noop ∧
      (Event.new (s.current_time + delay) action context).context =
        context.getD [] ∧
      (delay < 0 →
        (Event.new (s.current_time + delay) action context).time <
          s.current_time) := by
  refine ⟨rfl, rfl, rfl, rfl, rfl, rfl, ?_⟩
  intro h
  show s.current_time + delay < s.current_time
  linarith

/-- C7 witness: a concrete negative-delay timeout equals constructing
and scheduling the event, and the queued time lies before the clock. -/
theorem c7_witness :
    (EventScheduler.new Unit).timeout (-3) none none =
        (EventScheduler.new Unit).schedule
          (Event.new ((EventScheduler.new Unit).current_time + (-3)) none none) ∧
      (Event.new ((EventScheduler.new Unit).current_time + (-3))
          (none : Option (Act Unit)) none).time <
        (EventScheduler.new Unit).current_time :=
  ⟨(c7_timeout_refines_schedule (EventScheduler.new Unit) (-3) none none).1,
    (c7_timeout_refines_schedule (EventScheduler.new Unit) (-3) none none).2.2.2.2.2.2
      (by norm_num)⟩

/-- C9: `Event::new` accepts any rational time without validation
(negative included); the `Ord` comparison on finite times is total and
inverted: A ranks strictly before B (compares greater, so the max-heap
pops it first) exactly when `A.time < B.time`, the comparison is `eq`
exactly when the times are equal, and on a two-element queue the
earlier-time event is the one popped; `PartialEq` agrees with
time equality. -/
theorem c9_ordering_total {α : Type} :
    (∀ (t : ℚ) (a : Option (Act α)) (c : Option (List (String × String))),
        (Event.new t a c).time = t) ∧
      (∀ a b : Event α, Event.cmp a b = Ordering.gt ↔ a.time < b.time) ∧
      (∀ a b : Event α, Event.cmp a b = Ordering.eq ↔ a.time = b.time) ∧
      (∀ a b : Event α, Event.cmp a b = Ordering.lt ↔ b.time < a.time) ∧
      (∀ a b : Event α, Event.cmp a b = Ordering.gt ∨
        Event.cmp a b = Ordering.eq ∨ Event.cmp a b = Ordering.lt) ∧
      (∀ a b : Event α, Event.eq a b = true ↔ a.time = b.time) ∧
      (∀ a b : Event α, a.time < b.time →
        heapPop [a, b] = some (a, [b]) ∧ heapPop [b, a] = some (a, [b])) := by
  refine ⟨fun _ _ _ => rfl, Event.cmp_gt_iff, Event.cmp_eq_iff, Event.cmp_lt_iff,
    ?_, ?_, ?_⟩
  · intro a b
    rcases lt_trichotomy a.time b.time with h | h | h
    · exact Or.inl ((Event.cmp_gt_iff a b).mpr h)
    · exact Or.inr (Or.inl ((Event.cmp_eq_iff a b).mpr h))
    · exact Or.inr (Or.inr ((Event.cmp_lt_iff a b).mpr h))
  · intro a b
    rw [Event.eq]
    simp
  · intro a b h
    have h1 : ¬ Event.cmp b a = Ordering.gt := by
      rw [Event.cmp_gt_iff]
      exact not_lt_of_gt h
    have h2 : Event.cmp a b = Ordering.gt := (Event.cmp_gt_iff a b).mpr h
    constructor <;> simp [heapPop, h1, h2]

/-- C9 witness: on concrete events at times 1 and 2, either insertion
order pops the time-1 event first. -/
theorem c9_witness :
    heapPop [Event.new (1 : ℚ) (none : Option (Act Unit)) none, Event.new 2 none none] =
        some (Event.new 1 none none, [Event.new 2 none none]) ∧
      heapPop [Event.new (2 : ℚ) (none : Option (Act Unit)) none, Event.new 1 none none] =
        some (Event.new 1 none none, [Event.new 2 none none]) :=
  c9_ordering_total.2.2.2.2.2.2 (Event.new 1 none none) (Event.new 2 none none)
    (by decide)

/-- C4: a `run` whose stop predicate is already true at entry dequeues
nothing: it returns the scheduler completely unchanged together with the
clone of the full accumulated log from before the call. -/
theorem c4_run_stop_immediately {α : Type} (interp : Interp α)
    (stop : EventScheduler α → Bool)
    (lfo : Option (Event α → Option String → Bool)) (fuel : Nat)
    (s : EventScheduler α) (hstop : stop s = true) :
    s.run interp stop lfo (fuel + 1) = some (s, cloneLog s.event_log) := by
  rw [EventScheduler.run, runLoop_stop fuel hstop]
  rfl

/-- C4 witness: on a concrete scheduler with a queued event and an
always-true stop predicate, `run` returns state and log untouched. -/
theorem c4_witness :
    oneEventSched.run unitInterp (fun _ => true) none 1 =
      some (oneEventSched, cloneLog oneEventSched.event_log) :=
  c4_run_stop_immediately unitInterp (fun _ => true) none 0 oneEventSched rfl

/-- C1 counterexample: after a run, the pair stored in the scheduler's
internal `event_log` keeps the executed event's original live action —
invoking the stored action returns `some "r"`, not `none`, so the
internal log does hold a live action. -/
theorem c1_counterexample :
    (runLoop unitInterp (fun _ => false) (fun _ _ => true) 2 oneEventSched).map
        (fun s2 => s2.event_log.map
          (fun p => (runAct unitInterp p.1.action (EventScheduler.new Unit)).2)) =
        some [some "r"] ∧
      (some "r" : Option String) ≠ none := by
  exact ⟨rfl, by decide⟩

/-- C1 amended: the internal `event_log` keeps the original executed
events with their live actions; it is the log RETURNED by `run`
(`self.event_log.clone()`) whose entries are duplicates with the action
erased: every returned pair's action is the no-op placeholder, which
when invoked returns any scheduler unchanged with no result. -/
theorem c1_returned_log_erased {α : Type} (interp : Interp α)
    (stop : EventScheduler α → Bool)
    (lfo : Option (Event α → Option String → Bool)) (fuel : Nat)
    (s s2 : EventScheduler α) (ret : List (Event α × Option String))
    (hrun : s.run interp stop lfo fuel = some (s2, ret)) :
    ret = cloneLog s2.event_log ∧
      ∀ p ∈ ret, p.1.action = Act.noop ∧
        ∀ (interp2 : Interp α) (t : EventScheduler α),
          runAct interp2 p.1.action t = (t, none) := by
  rw [EventScheduler.run, Option.map_eq_some'] at hrun
  obtain ⟨t, hr, hft⟩ := hrun
  simp only [Prod.mk.injEq] at hft
  obtain ⟨ht, hret⟩ := hft
  rw [← hret, ← ht]
  refine ⟨rfl, ?_⟩
  intro p hp
  rw [cloneLog] at hp
  rcases List.mem_map.mp hp with ⟨q, _, hq⟩
  rw [← hq]
  exact ⟨rfl, fun interp2 t2 => rfl⟩

/-- C1 witness: applying the amended claim to a concrete completed run,
the returned entry's action invoked on a fresh scheduler does nothing
and returns no result. -/
theorem c1_witness :
    runAct unitInterp (Act.noop : Act Unit) (EventScheduler.new Unit) =
      (EventScheduler.new Unit, none) :=
  ((c1_returned_log_erased unitInterp (fun _ => false) none 2 oneEventSched
      (EventScheduler.mk 1 [] [(Event.mk 1 (Act.custom ()) [] true, some "r")])
      [(Event.mk 1 Act.noop [] true, some "r")]
      rfl).2
    (Event.mk 1 Act.noop [] true, some "r")
    (by decide)).2 unitInterp (EventScheduler.new Unit)

/-- C10: when actions never enlarge the event queue (in particular when
they schedule nothing), the run loop reaches loop exit for every stop
predicate and every log filter: fuel one more than the queue length
always suffices. -/
theorem c10_run_terminates {α : Type} (interp : Interp α)
    (hq : QueueNonIncreasing interp) (stop : EventScheduler α → Bool)
    (lf : Event α → Option String → Bool) (s : EventScheduler α) :
    ∃ s2, runLoop interp stop lf (s.event_queue.length + 1) s = some s2 :=
  runLoop_total hq stop lf _ s (Nat.lt_succ_self _)

/-- C10 witness: a concrete two-event scheduler under a non-scheduling
interpretation reaches loop exit with fuel 3. -/
theorem c10_witness :
    ∃ s2, runLoop unitInterp (fun _ => false) (fun _ _ => true)
        (boundarySched.event_queue.length + 1) boundarySched = some s2 :=
  c10_run_terminates unitInterp (fun _ _ => le_refl _) (fun _ => false)
    (fun _ _ => true) boundarySched

/-- C2: with actions that do not mutate the scheduler and a fresh log,
every completed run under the accept-all filter has logged (executed)
events in non-decreasing time order and the clock equal to the last
executed event's time (instantiating the stop predicate with one that
counts steps yields the property after every step); moreover the run
with the stop predicate that only halts on empty queue completes with
fuel one past the queue length, drains the queue, and executes exactly
the initially queued events. -/
theorem c2_nondecreasing_order {α : Type} (interp : Interp α)
    (hpure : PureInterp interp) (s : EventScheduler α)
    (hlog : s.event_log = []) :
    (∀ (stop : EventScheduler α → Bool) (fuel : Nat) (s2 : EventScheduler α),
        runLoop interp stop (fun _ _ => true) fuel s = some s2 →
          List.Pairwise (fun p q => p.1.time ≤ q.1.time) s2.event_log ∧
          (∀ p, s2.event_log.getLast? = some p → p.1.time = s2.current_time)) ∧
      ∃ s2, runLoop interp (fun _ => false) (fun _ _ => true)
          (s.event_queue.length + 1) s = some s2 ∧
        s2.event_queue = [] ∧
        (s2.event_log.map Prod.fst).Perm s.event_queue := by
  have hqn : QueueNonIncreasing interp := fun a t => by rw [hpure a t]
  have hinv0 : orderedInv s := by
    rw [orderedInv, hlog]
    exact ⟨List.Pairwise.nil, by simp, by simp, by simp⟩
  constructor
  · intro stop fuel s2 hrun
    obtain ⟨h1, _, h3, _⟩ := runLoop_inv hpure stop fuel s s2 hrun hinv0
    exact ⟨h1, h3⟩
  · obtain ⟨s2, hs2⟩ :=
      runLoop_total hqn (fun _ => false) (fun _ _ => true) _ s (Nat.lt_succ_self _)
    have hqnil : s2.event_queue = [] := runLoop_falseStop_queue _ _ _ hs2
    refine ⟨s2, hs2, hqnil, ?_⟩
    have hperm := runLoop_perm hpure _ s s2 hs2
    rw [hlog, hqnil] at hperm
    simpa using hperm.symm

/-- C2 witness: the concrete two-event scheduler (times 5 and 15) under
a non-mutating interpretation runs to completion in sorted order. -/
theorem c2_witness :
    ∃ s2, runLoop unitInterp (fun _ => false) (fun _ _ => true)
        (boundarySched.event_queue.length + 1) boundarySched = some s2 ∧
      s2.event_queue = [] ∧
      (s2.event_log.map Prod.fst).Perm boundarySched.event_queue :=
  (c2_nondecreasing_order unitInterp (fun _ _ => rfl) boundarySched rfl).2

/-- C3: the max-time stop condition is true exactly when the clock has
reached `max_time`, the queue is empty, or the next queued event's time
is at or past `max_time`; when true at entry, `run_until_max_time`
halts immediately with the state untouched; when actions do not touch
the log and the log starts empty, no logged (executed) event has time
`≥ max_time`; and in the concrete scenario with events at t=5 and t=15,
`run_until_max_time(10)` executes exactly the t=5 event, ends with the
clock at 5, and leaves the t=15 event still queued. -/
theorem c3_max_time_boundary {α : Type} (interp : Interp α) (mt : ℚ)
    (s : EventScheduler α) :
    (stop_at_max_time_factory mt s = true ↔
        mt ≤ s.current_time ∨ s.event_queue = [] ∨
          ∃ e, heapPeek s.event_queue = some e ∧ mt ≤ e.time) ∧
      (∀ fuel, stop_at_max_time_factory mt s = true →
        s.run_until_max_time interp mt (fuel + 1) =
          some (s, cloneLog s.event_log)) ∧
      (PreservesLog interp → s.event_log = [] →
        ∀ fuel s2 ret, s.run_until_max_time interp mt fuel = some (s2, ret) →
          ∀ p ∈ s2.event_log, p.1.time < mt) ∧
      (boundarySched.run_until_max_time unitInterp 10 3).map
          (fun p => (p.1.current_time, p.1.event_queue.map Event.time,
            p.1.event_log.map (fun q => q.1.time), p.2.length)) =
        some (5, [15], [5], 1) := by
  refine ⟨stop_factory_true_iff mt s, ?_, ?_, by decide⟩
  · intro fuel hstop
    rw [EventScheduler.run_until_max_time, EventScheduler.run,
      runLoop_stop fuel hstop]
    rfl
  · intro hpl hlog fuel s2 ret hrun
    rw [EventScheduler.run_until_max_time, EventScheduler.run,
      Option.map_eq_some'] at hrun
    obtain ⟨t, hr, hft⟩ := hrun
    simp only [Prod.mk.injEq] at hft
    obtain ⟨ht, _⟩ := hft
    rw [← ht]
    exact runLoop_maxtime_log hpl mt _ fuel s t hr (by rw [hlog]; simp)

/-- C3 witness: on a fresh scheduler (empty queue) the stop condition is
true and `run_until_max_time` halts immediately with nothing changed. -/
theorem c3_witness :
    (EventScheduler.new Unit).run_until_max_time unitInterp 10 1 =
      some (EventScheduler.new Unit, cloneLog (EventScheduler.new Unit).event_log) :=
  (c3_max_time_boundary unitInterp 10 (EventScheduler.new Unit)).2.1 0 (by decide)

/-- C8: with non-mutating actions and a fresh log, running to empty
queue with the reject-all log filter still pops and executes every
queued event — the final clock and (empty) queue coincide with those of
the identical run under the accept-all filter, which logs one entry per
queued event ending at the last executed time — yet nothing is appended
to `event_log` and the returned log is empty. -/
theorem c8_reject_filter {α : Type} (interp : Interp α)
    (hpure : PureInterp interp) (s : EventScheduler α)
    (hlog : s.event_log = []) :
    ∃ s2 t2,
      s.run interp (fun _ => false) (some (fun _ _ => false))
          (s.event_queue.length + 1) = some (s2, []) ∧
        s2.event_log = [] ∧ s2.event_queue = [] ∧
        runLoop interp (fun _ => false) (fun _ _ => true)
            (s.event_queue.length + 1) s = some t2 ∧
        t2.current_time = s2.current_time ∧ t2.event_queue = [] ∧
        t2.event_log.length = s.event_queue.length ∧
        (∀ p, t2.event_log.getLast? = some p → p.1.time = t2.current_time) := by
  have hqn : QueueNonIncreasing interp := fun a t => by rw [hpure a t]
  obtain ⟨s2, hs2⟩ :=
    runLoop_total hqn (fun _ => false) (fun _ _ => false) _ s (Nat.lt_succ_self _)
  have hlog2 : s2.event_log = [] := by
    rw [runLoop_falseFilter_log hpure _ _ _ _ hs2, hlog]
  have hq2 : s2.event_queue = [] := runLoop_falseStop_queue _ _ _ hs2
  obtain ⟨t2, ht2, hct, hqu⟩ :=
    runLoop_lockstep hpure (fun _ _ => false) (fun _ _ => true) _ s s s2 rfl rfl hs2
  have hinv0 : orderedInv s := by
    rw [orderedInv, hlog]
    exact ⟨List.Pairwise.nil, by simp, by simp, by simp⟩
  obtain ⟨_, _, h3, _⟩ :=
    runLoop_inv hpure (fun _ => false) _ s t2 ht2 hinv0
  have hlen : t2.event_log.length = s.event_queue.length := by
    have hperm := runLoop_perm hpure _ s t2 ht2
    rw [hlog, ← hqu, hq2] at hperm
    simpa using hperm.length_eq.symm
  refine ⟨s2, t2, ?_, hlog2, hq2, ht2, hct.symm, by rw [← hqu, hq2], hlen, h3⟩
  rw [EventScheduler.run]
  have : (some (fun _ _ => false) :
      Option (Event α → Option String → Bool)).getD (fun _ _ => true) =
      (fun _ _ => false) := rfl
  rw [this, hs2]
  simp [cloneLog, hlog2]

/-- C8 witness: the concrete two-event scheduler under the reject-all
filter empties its queue and clock-advances exactly as the accept-all
run does, with an empty log. -/
theorem c8_witness :
    ∃ s2 t2,
      boundarySched.run unitInterp (fun _ => false) (some (fun _ _ => false))
          (boundarySched.event_queue.length + 1) = some (s2, []) ∧
        s2.event_log = [] ∧ s2.event_queue = [] ∧
        runLoop unitInterp (fun _ => false) (fun _ _ => true)
            (boundarySched.event_queue.length + 1) boundarySched = some t2 ∧
        t2.current_time = s2.current_time ∧ t2.event_queue = [] ∧
        t2.event_log.length = boundarySched.event_queue.length ∧
        (∀ p, t2.event_log.getLast? = some p → p.1.time = t2.current_time) :=
  c8_reject_filter unitInterp (fun _ _ => rfl) boundarySched rfl

end DESRu
